import Mathlib

/-!
Verification of the audio ingestion / voice-segmentation core of the
Audio-Scraping-Service repository.

The definitions below are a shallow embedding of the Python source:

* `frame_generator`, `vad_collector` — `app/services/youtube_processor.py`,
  `YouTubeProcessor.frame_generator` / `YouTubeProcessor.vad_collector`.
* `enhance_audio_chunked` — `YouTubeProcessor.enhance_audio_chunked`.
* `split_with_vad_clips` — the clip filtering / numbering / padding loop of
  `YouTubeProcessor.split_with_vad`.
* `process_video_model` — the temporary-file lifecycle of
  `YouTubeProcessor.process_video` + `YouTubeProcessor.download_audio`.
* `seconds_to_time_obj`, `time_to_seconds` — the time conversions of
  `DatabaseService.save_audio_clip` and `YouTubeProcessor._time_to_seconds`.

Real (IEEE-754) arithmetic on timestamps and durations is modelled exactly
over `ℚ`; machine byte strings are modelled as `List ℕ`.  Python's `int()`
truncation on non-negative values is `pyInt`.
-/

/-- A single audio frame for VAD processing (`class Frame`): a byte window
plus its start timestamp (seconds) and duration (seconds). -/
structure Frame where
  bytes : List ℕ
  timestamp : ℚ
  duration : ℚ
deriving DecidableEq

instance : Inhabited Frame := ⟨⟨[], 0, 0⟩⟩

/-- Python `int(q)` for a rational: truncation toward zero. -/
def pyInt (q : ℚ) : ℤ :=
  if 0 ≤ q then ⌊q⌋ else -⌊-q⌋

/-- The frame byte size `n = int(sample_rate * (frame_duration_ms / 1000.0) * 2)`
from `frame_generator` (two bytes per 16-bit sample). -/
def frame_byte_size (frame_duration_ms sample_rate : ℕ) : ℕ :=
  sample_rate * frame_duration_ms * 2 / 1000

/-- The loop of `frame_generator`: starting at byte `offset` with running
timestamp `ts`, yield a frame of `n` bytes while `offset + n <= len(audio)`.
The `0 < n` guard makes the recursion well-founded; with `n = 0` the Python
generator never terminates, so every theorem assumes `0 < n`. -/
def frameGenGo (n : ℕ) (dur : ℚ) (audio : List ℕ) (offset : ℕ) (ts : ℚ) :
    List Frame :=
  if _h : 0 < n ∧ offset + n ≤ audio.length then
    ⟨(audio.drop offset).take n, ts, dur⟩ ::
      frameGenGo n dur audio (offset + n) (ts + dur)
  else
    []
termination_by audio.length - offset
decreasing_by omega

/-- `YouTubeProcessor.frame_generator`: slice a PCM byte buffer into
contiguous frames of `frame_byte_size` bytes, each of duration
`(n / sample_rate) / 2` seconds, starting at timestamp `0.0`. -/
def frame_generator (frame_duration_ms : ℕ) (audio : List ℕ)
    (sample_rate : ℕ) : List Frame :=
  let n := frame_byte_size frame_duration_ms sample_rate
  frameGenGo n (((n : ℚ) / (sample_rate : ℚ)) / 2) audio 0 0

/-- `collections.deque(maxlen := maxlen)` append: keep only the last
`maxlen` elements. -/
def pushRing (maxlen : ℕ) (buf : List (Frame × Bool)) (x : Frame × Bool) :
    List (Frame × Bool) :=
  let b := buf ++ [x]
  b.drop (b.length - maxlen)

/-- `num_voiced = len([f for f, speech in ring_buffer if speech])`. -/
def countSpeech (buf : List (Frame × Bool)) : ℕ :=
  (buf.filter (fun p => p.2)).length

/-- `num_unvoiced = len([f for f, speech in ring_buffer if not speech])`. -/
def countNonSpeech (buf : List (Frame × Bool)) : ℕ :=
  (buf.filter (fun p => !p.2)).length

/-- Mutable state of the `vad_collector` loop. -/
structure VadState where
  triggered : Bool
  ring_buffer : List (Frame × Bool)
  voiced_frames : List Frame
  segments : List (ℚ × ℚ)
deriving DecidableEq

/-- Initial `vad_collector` state: `triggered = False`, empty ring buffer,
no voiced frames, no segments. -/
def initVadState : VadState := ⟨false, [], [], []⟩

/-- `(voiced_frames[0].timestamp,
     voiced_frames[-1].timestamp + voiced_frames[-1].duration)` —
the segment closed from a (nonempty) voiced-frame accumulator. -/
def closeSegment (vf : List Frame) : ℚ × ℚ :=
  ((vf.headD default).timestamp,
   (vf.getLastD default).timestamp + (vf.getLastD default).duration)

/-- One iteration of the `for frame in frames` loop of `vad_collector`.
The float comparison `num_voiced > 0.9 * ring_buffer.maxlen` is embedded
exactly as the rational comparison `10 * num_voiced > 9 * maxlen` (the two
agree for every integer operand pair). -/
def vadStep (maxlen : ℕ) (is_speech : Frame → Bool) (st : VadState)
    (frame : Frame) : VadState :=
  if st.triggered = false then
    let rb := pushRing maxlen st.ring_buffer (frame, is_speech frame)
    if 10 * countSpeech rb > 9 * maxlen then
      { triggered := true
        ring_buffer := []
        voiced_frames := st.voiced_frames ++ rb.map Prod.fst
        segments := st.segments }
    else
      { st with ring_buffer := rb }
  else
    let vf := st.voiced_frames ++ [frame]
    let rb := pushRing maxlen st.ring_buffer (frame, is_speech frame)
    if 10 * countNonSpeech rb > 9 * maxlen then
      { triggered := false
        ring_buffer := []
        voiced_frames := []
        segments := st.segments ++ [closeSegment vf] }
    else
      { triggered := true
        ring_buffer := rb
        voiced_frames := vf
        segments := st.segments }

/-- The post-loop flush of `vad_collector`:
`if voiced_frames: segments.append(...)`. -/
def vadFinish (st : VadState) : List (ℚ × ℚ) :=
  if st.voiced_frames = [] then st.segments
  else st.segments ++ [closeSegment st.voiced_frames]

/-- `YouTubeProcessor.vad_collector`: run the hysteresis state machine over
a frame sequence.  The per-frame classifier `is_speech` abstracts
`vad.is_speech(frame.bytes, sample_rate)`. -/
def vad_collector (frame_duration_ms padding_duration_ms : ℕ)
    (is_speech : Frame → Bool) (frames : List Frame) : List (ℚ × ℚ) :=
  let num_padding_frames := padding_duration_ms / frame_duration_ms
  vadFinish (frames.foldl (vadStep num_padding_frames is_speech) initVadState)

example :
    vad_collector 30 300 (fun _ => true) [⟨[], 0, 1⟩] = [] := by decide

example :
    vad_collector 30 30 (fun _ => true) [⟨[], 0, 1⟩] = [(0, 1)] := by
  norm_num [vad_collector, vadStep, initVadState, pushRing, countSpeech,
    countNonSpeech, vadFinish, closeSegment]

/-! ### The VAD state machine as worded by the specification (§4.5)

`specVadRun` is *modelled from the spec's words*, to be compared with the
source-derived `vad_collector`: two explicit states `IDLE` / `TRIGGERED`, a
ring buffer holding the last `N` frame-classifications, and a transition
threshold of "more than 90% of the buffered frames".  The machine is
parametrised by `base`, the quantity of which the speech (resp. non-speech)
count must exceed 90%: the specification's literal wording compares against
the number of currently buffered frames (`fun w => w.length`), while the
source compares against the buffer's fixed capacity (`fun _ => n`). -/

/-- The two states of the specification's VAD machine. -/
inductive VadMode where
  | idle
  | triggered
deriving DecidableEq

/-- State of the specification's VAD machine: current mode, the window of
the last `N` frame-classifications, the accumulating voiced-frame list, and
the output segments. -/
structure SpecVadState where
  mode : VadMode
  window : List (Frame × Bool)
  accum : List Frame
  output : List (ℚ × ℚ)
deriving DecidableEq

/-- Keep the last `n` entries of a list (the spec's "ring buffer of the
last N frame-classifications"). -/
def lastN (n : ℕ) (l : List (Frame × Bool)) : List (Frame × Bool) :=
  (l.reverse.take n).reverse

/-- One transition of the specification's VAD machine (§4.5), with the
90% threshold taken relative to `base window`. -/
def specVadStep (n : ℕ) (base : List (Frame × Bool) → ℕ)
    (is_speech : Frame → Bool) (st : SpecVadState) (frame : Frame) :
    SpecVadState :=
  match st.mode with
  | .idle =>
    let window := lastN n (st.window ++ [(frame, is_speech frame)])
    if 10 * countSpeech window > 9 * base window then
      { mode := .triggered
        window := []
        accum := st.accum ++ window.map Prod.fst
        output := st.output }
    else
      { st with window := window }
  | .triggered =>
    let accum := st.accum ++ [frame]
    let window := lastN n (st.window ++ [(frame, is_speech frame)])
    if 10 * countNonSpeech window > 9 * base window then
      { mode := .idle
        window := []
        accum := []
        output := st.output ++ [closeSegment accum] }
    else
      { mode := .triggered
        window := window
        accum := accum
        output := st.output }

/-- Run the specification's VAD machine over a frame sequence; if the input
ends while still `TRIGGERED`, the in-progress voiced run is closed as a
final segment (§4.5 "Termination"). -/
def specVadRun (n : ℕ) (base : List (Frame × Bool) → ℕ)
    (is_speech : Frame → Bool) (frames : List Frame) : List (ℚ × ℚ) :=
  let final := frames.foldl (specVadStep n base is_speech) ⟨.idle, [], [], []⟩
  match final.mode with
  | .triggered => final.output ++ [closeSegment final.accum]
  | .idle => final.output

/-! ### Chunked noise-suppression engine (`enhance_audio_chunked`) -/

/-- The `i`-th input chunk of `enhance_audio_chunked`:
`start_idx = i * chunk_size`, `end_idx = min(start_idx + chunk_size, total)`,
`chunk = audio[:, start_idx:end_idx]`. -/
def audioChunk (chunk_size : ℕ) (audio : List ℚ) (i : ℕ) : List ℚ :=
  let start_idx := i * chunk_size
  let end_idx := min (start_idx + chunk_size) audio.length
  (audio.drop start_idx).take (end_idx - start_idx)

/-- `num_chunks = (total_samples + chunk_size - 1) // chunk_size`
(ceiling division). -/
def numChunks (chunk_size : ℕ) (audio : List ℚ) : ℕ :=
  (audio.length + chunk_size - 1) / chunk_size

/-- The `i`-th chunk appended to `enhanced_chunks`: the result of
`enhance(self.model, self.df_state, chunk)` when inference succeeds, and
the original, unenhanced chunk when it raises
(`except ... enhanced_chunks.append(chunk)`). -/
def enhancedChunk (enhanceFn : List ℚ → Option (List ℚ)) (chunk_size : ℕ)
    (audio : List ℚ) (i : ℕ) : List ℚ :=
  match enhanceFn (audioChunk chunk_size audio i) with
  | some enhanced_chunk => enhanced_chunk
  | none => audioChunk chunk_size audio i

/-- The chunk loop plus final `torch.cat(enhanced_chunks, dim=1)`. -/
def enhanceConcat (enhanceFn : List ℚ → Option (List ℚ)) (chunk_size : ℕ)
    (audio : List ℚ) : List ℚ :=
  ((List.range (numChunks chunk_size audio)).map
    (enhancedChunk enhanceFn chunk_size audio)).flatten

/-- `YouTubeProcessor.enhance_audio_chunked`: the waveform is a sample
sequence (`List ℚ`, one channel); `enhanceFn` abstracts
`enhance(self.model, self.df_state, chunk)`, returning `none` when
inference raises.  `chunk_size = int(chunk_duration_seconds * sr)`. -/
def enhance_audio_chunked (enhanceFn : List ℚ → Option (List ℚ))
    (sr chunk_duration_seconds : ℕ) (audio : List ℚ) : List ℚ :=
  let chunk_size := chunk_duration_seconds * sr
  enhanceConcat enhanceFn chunk_size audio

/-! ### Clip extraction and padding (`split_with_vad`) -/

/-- Round-half-even at integer precision (Python's `round` on an exactly
represented value). -/
def roundHalfEven (q : ℚ) : ℤ :=
  if q - ⌊q⌋ = 1 / 2 then 2 * round (q / 2) else round q

/-- Python `round(x, 2)`, with the float modelled as an exact rational. -/
def round2 (x : ℚ) : ℚ :=
  (roundHalfEven (x * 100) : ℚ) / 100

/-- Zero-pad a clip counter to three digits (Python `f"{counter:03d}"`). -/
def pad3 (counter : ℕ) : String :=
  if counter < 10 then "00" ++ toString counter
  else if counter < 100 then "0" ++ toString counter
  else toString counter

/-- One record of the `clips_data` list built by `split_with_vad`, together
with the padded PCM payload written to the clip file. -/
structure ClipRecord where
  clip_name : String
  start_time : ℚ
  end_time : ℚ
  duration : ℚ
  padded_duration : ℚ
  payload : List ℕ
deriving DecidableEq

/-- The clip built by one accepted iteration of the `for start, end in
segments` loop of `split_with_vad`: the PCM window
`pcm[int(start*sr)*width : ...]` re-read from the normalized waveform, with
`int(start_padding*sr)` frames of zero bytes prepended and
`int(end_padding*sr)` frames of zero bytes appended. -/
def make_clip (video_id : String) (sample_rate sample_width : ℕ)
    (pcm : List ℕ) (start_padding end_padding : ℚ) (counter : ℕ)
    (s e : ℚ) : ClipRecord :=
  let duration := e - s
  let audio_data := (pcm.drop ((pyInt (s * sample_rate)).toNat * sample_width)).take
    ((pyInt (duration * sample_rate)).toNat * sample_width)
  let start_silence := List.replicate ((pyInt (start_padding * sample_rate)).toNat * sample_width) 0
  let end_silence := List.replicate ((pyInt (end_padding * sample_rate)).toNat * sample_width) 0
  { clip_name := video_id ++ "-" ++ pad3 counter ++ ".wav"
    start_time := round2 s
    end_time := round2 e
    duration := round2 duration
    padded_duration := round2 (duration + start_padding + end_padding)
    payload := start_silence ++ audio_data ++ end_silence }

/-- The clip filtering / numbering loop of `split_with_vad`: a segment is
skipped when `duration < MIN_CLIP_DURATION or duration > MAX_CLIP_DURATION`
(and then `clip_counter` is *not* incremented); otherwise a clip is
materialized and `clip_counter += 1`. -/
def splitClipsLoop (min_clip_duration max_clip_duration : ℚ)
    (video_id : String) (sample_rate sample_width : ℕ) (pcm : List ℕ)
    (start_padding end_padding : ℚ) :
    List (ℚ × ℚ) → ℕ → List ClipRecord
  | [], _ => []
  | (s, e) :: rest, clip_counter =>
    let duration := e - s
    if duration < min_clip_duration ∨ duration > max_clip_duration then
      splitClipsLoop min_clip_duration max_clip_duration video_id
        sample_rate sample_width pcm start_padding end_padding rest
        clip_counter
    else
      make_clip video_id sample_rate sample_width pcm start_padding
          end_padding clip_counter s e ::
        splitClipsLoop min_clip_duration max_clip_duration video_id
          sample_rate sample_width pcm start_padding end_padding rest
          (clip_counter + 1)

/-- The clip-producing part of `YouTubeProcessor.split_with_vad`
(`clip_counter = 1` initially). -/
def split_with_vad_clips (min_clip_duration max_clip_duration : ℚ)
    (video_id : String) (sample_rate sample_width : ℕ) (pcm : List ℕ)
    (start_padding end_padding : ℚ) (segments : List (ℚ × ℚ)) :
    List ClipRecord :=
  splitClipsLoop min_clip_duration max_clip_duration video_id sample_rate
    sample_width pcm start_padding end_padding segments 1

/-! ### Temporary-file lifecycle of the pipeline orchestrator -/

/-- Errors of the pipeline stages relevant to artifact cleanup. -/
inductive PipelineError where
  | downloadError
  | conversionError
  | laterStageError
deriving DecidableEq

/-- Which intermediate artifacts currently exist on disk: the raw audio
file downloaded by `yt_dlp` (`<tmp>_raw.<ext>`) and the temporary WAV
working file (`NamedTemporaryFile(suffix='.wav')`). -/
structure TempFiles where
  raw_file : Bool
  wav_file : Bool
deriving DecidableEq

/-- `YouTubeProcessor.download_audio` as a transition on the artifact
state: `yt_dlp` writes the raw file (or raises); `ffmpeg` converts it into
the WAV working file (or raises `CalledProcessError`, re-raised as
`RuntimeError` *before* the raw-file cleanup is reached); only after a
successful conversion is the raw file removed. -/
def download_audio_model (download_ok conversion_ok : Bool)
    (fs : TempFiles) : Except PipelineError Unit × TempFiles :=
  if download_ok = false then
    (.error .downloadError, fs)
  else
    let fs1 := { fs with raw_file := true }
    if conversion_ok = false then
      (.error .conversionError, fs1)
    else
      let fs2 := { fs1 with wav_file := true }
      (.ok (), { fs2 with raw_file := false })

/-- `YouTubeProcessor.process_video` as a transition on the artifact state:
`NamedTemporaryFile` creates the WAV working file, the body runs
`download_audio` then the later stages (enhancement / resampling / VAD
splitting, abstracted by `later_ok`), and the `finally` block removes the
WAV working file on every exit path. -/
def process_video_model (download_ok conversion_ok later_ok : Bool) :
    Except PipelineError Unit × TempFiles :=
  let fs0 : TempFiles := { raw_file := false, wav_file := true }
  let body :=
    match download_audio_model download_ok conversion_ok fs0 with
    | (.error e, fs) => ((.error e : Except PipelineError Unit), fs)
    | (.ok _, fs) =>
      if later_ok then (.ok (), fs) else (.error .laterStageError, fs)
  (body.1, { body.2 with wav_file := false })

/-! ### Clip timestamp persistence (`DatabaseService.save_audio_clip`) -/

/-- A Python `datetime.time` value as constructed by `save_audio_clip`. -/
structure TimeObj where
  hour : ℕ
  minute : ℕ
  second : ℕ
  microsecond : ℕ
deriving DecidableEq

/-- The seconds-to-time-of-day conversion of `DatabaseService.save_audio_clip`:
`total_seconds = int(t)`, `microseconds = int((t % 1) * 1000000)`,
`hours = (total_seconds // 3600) % 24` (wrap past 24 hours),
`minutes = (total_seconds % 3600) // 60`, `seconds = total_seconds % 60`. -/
def seconds_to_time_obj (t : ℚ) : TimeObj :=
  let total_seconds := (pyInt t).toNat
  let microseconds := (pyInt (Int.fract t * 1000000)).toNat
  { hour := total_seconds / 3600 % 24
    minute := total_seconds % 3600 / 60
    second := total_seconds % 60
    microsecond := microseconds }

/-- `YouTubeProcessor._time_to_seconds`: reconstruct elapsed seconds from a
persisted time-of-day value. -/
def time_to_seconds (time_obj : TimeObj) : ℚ :=
  time_obj.hour * 3600 + time_obj.minute * 60 + time_obj.second +
    (time_obj.microsecond : ℚ) / 1000000

/-! ### C3: the frame generator emits exactly `⌊L / n⌋` full frames -/

/-- Closed form of the `frame_generator` loop: starting at `offset`, it
emits `(len - offset) / n` frames, the `i`-th being the byte window
`audio[offset + i*n : offset + (i+1)*n]` at timestamp `ts + i*dur`. -/
theorem frameGenGo_closed (n : ℕ) (dur : ℚ) (audio : List ℕ) (hn : 0 < n) :
    ∀ fuel offset, audio.length - offset ≤ fuel → ∀ ts : ℚ,
      frameGenGo n dur audio offset ts =
        (List.range ((audio.length - offset) / n)).map
          (fun i => ⟨(audio.drop (offset + i * n)).take n,
                     ts + (i : ℚ) * dur, dur⟩) := by
  intro fuel
  induction fuel with
  | zero =>
    intro offset hf ts
    rw [frameGenGo, dif_neg (by omega)]
    have h0 : audio.length - offset = 0 := by omega
    simp [h0]
  | succ fuel ih =>
    intro offset hf ts
    by_cases h : offset + n ≤ audio.length
    · rw [frameGenGo, dif_pos ⟨hn, h⟩]
      have hdiv : (audio.length - offset) / n =
          (audio.length - offset - n) / n + 1 :=
        Nat.div_eq_sub_div hn (by omega)
      rw [hdiv, List.range_succ_eq_map, List.map_cons, List.map_map]
      congr 1
      · simp
      · rw [ih (offset + n) (by omega) (ts + dur)]
        have harith : audio.length - (offset + n) =
            audio.length - offset - n := by omega
        rw [harith]
        apply List.map_congr_left
        intro i _
        have h1 : offset + n + i * n = offset + (i + 1) * n := by ring
        have h2 : ts + dur + (i : ℚ) * dur = ts + ((i : ℚ) + 1) * dur := by
          ring
        simp [Function.comp, h1, h2, Nat.succ_eq_add_one]
    · rw [frameGenGo, dif_neg (by omega)]
      have h0 : (audio.length - offset) / n = 0 :=
        Nat.div_eq_of_lt (by omega)
      simp [h0]

/-- Closed form of `frame_generator` itself. -/
theorem frame_generator_closed (frame_duration_ms sample_rate : ℕ)
    (audio : List ℕ)
    (hn : 0 < frame_byte_size frame_duration_ms sample_rate) :
    frame_generator frame_duration_ms audio sample_rate =
      (List.range (audio.length / frame_byte_size frame_duration_ms sample_rate)).map
        (fun i =>
          ⟨(audio.drop (i * frame_byte_size frame_duration_ms sample_rate)).take
              (frame_byte_size frame_duration_ms sample_rate),
           (i : ℚ) * (((frame_byte_size frame_duration_ms sample_rate : ℚ) /
              (sample_rate : ℚ)) / 2),
           ((frame_byte_size frame_duration_ms sample_rate : ℚ) /
              (sample_rate : ℚ)) / 2⟩) := by
  unfold frame_generator
  rw [frameGenGo_closed _ _ _ hn audio.length 0 (by omega) 0]
  simp

/-- C3: for every `frame_duration_ms`, sample rate and PCM byte buffer, the
frame generator emits exactly `⌊L / frame_byte_size⌋` frames; the `i`-th
frame is the `i`-th contiguous `frame_byte_size`-byte window of the buffer
(in order, non-overlapping) at timestamp `i * duration`, and every emitted
frame is full (`frame_byte_size` bytes long) — no partial frame. -/
theorem frame_generator_count_and_windows (frame_duration_ms sample_rate : ℕ)
    (audio : List ℕ)
    (hn : 0 < frame_byte_size frame_duration_ms sample_rate) :
    (frame_generator frame_duration_ms audio sample_rate).length =
        audio.length / frame_byte_size frame_duration_ms sample_rate ∧
    (∀ i (hi : i < (frame_generator frame_duration_ms audio sample_rate).length),
      (frame_generator frame_duration_ms audio sample_rate).get ⟨i, hi⟩ =
        ⟨(audio.drop (i * frame_byte_size frame_duration_ms sample_rate)).take
            (frame_byte_size frame_duration_ms sample_rate),
         (i : ℚ) * (((frame_byte_size frame_duration_ms sample_rate : ℚ) /
            (sample_rate : ℚ)) / 2),
         ((frame_byte_size frame_duration_ms sample_rate : ℚ) /
            (sample_rate : ℚ)) / 2⟩) ∧
    (∀ f ∈ frame_generator frame_duration_ms audio sample_rate,
      f.bytes.length = frame_byte_size frame_duration_ms sample_rate) := by
  rw [frame_generator_closed frame_duration_ms sample_rate audio hn]
  refine ⟨by simp, ?_, ?_⟩
  · intro i hi
    simp only [List.length_map, List.length_range] at hi
    simp [hi]
  · intro f hf
    simp only [List.mem_map, List.mem_range] at hf
    obtain ⟨i, hi, rfl⟩ := hf
    have hfull : i * frame_byte_size frame_duration_ms sample_rate +
        frame_byte_size frame_duration_ms sample_rate ≤ audio.length := by
      have h1 : (i + 1) * frame_byte_size frame_duration_ms sample_rate ≤
          audio.length / frame_byte_size frame_duration_ms sample_rate *
            frame_byte_size frame_duration_ms sample_rate :=
        Nat.mul_le_mul_right _ hi
      have h2 : audio.length / frame_byte_size frame_duration_ms sample_rate *
          frame_byte_size frame_duration_ms sample_rate ≤ audio.length :=
        Nat.div_mul_le_self audio.length _
      calc i * frame_byte_size frame_duration_ms sample_rate +
            frame_byte_size frame_duration_ms sample_rate
          = (i + 1) * frame_byte_size frame_duration_ms sample_rate := by ring
        _ ≤ audio.length := le_trans h1 h2
    simp only [List.length_take, List.length_drop]
    omega

/-- Witness for C3 at a concrete input: `frame_byte_size 1 500 = 1` and a
3-byte buffer yields exactly 3 frames. -/
theorem frame_generator_count_and_windows_witness :
    (frame_generator 1 [7, 8, 9] 500).length = 3 :=
  (frame_generator_count_and_windows 1 500 [7, 8, 9] (by decide)).1

/-! ### C1: the VAD state machine against the specification's wording -/

/-- `pushRing` (a `deque` with `maxlen`) keeps exactly the last `maxlen`
entries. -/
theorem lastN_eq_pushRing (n : ℕ) (buf : List (Frame × Bool))
    (x : Frame × Bool) : lastN n (buf ++ [x]) = pushRing n buf x := by
  unfold lastN pushRing
  rw [List.reverse_take]
  simp

/-- Correspondence between a `vad_collector` loop state and a state of the
specification's machine, together with the invariant that the machine is
`TRIGGERED` exactly when the voiced-frame accumulator is nonempty. -/
def VadCorr (st : VadState) (sst : SpecVadState) : Prop :=
  (st.triggered = true ↔ sst.mode = VadMode.triggered) ∧
  st.ring_buffer = sst.window ∧
  st.voiced_frames = sst.accum ∧
  st.segments = sst.output ∧
  (st.triggered = true ↔ st.voiced_frames ≠ [])

/-- One step of `vad_collector` matches one step of the capacity-threshold
specification machine, and preserves the triggered/nonempty invariant. -/
theorem vadStep_corr (n : ℕ) (c : Frame → Bool) (st : VadState)
    (sst : SpecVadState) (f : Frame) (h : VadCorr st sst) :
    VadCorr (vadStep n c st f) (specVadStep n (fun _ => n) c sst f) := by
  obtain ⟨hmode, hwin, haccum, hout, htrig⟩ := h
  by_cases ht : st.triggered = true
  · have hm : sst.mode = VadMode.triggered := hmode.mp ht
    have hvf : st.voiced_frames ≠ [] := htrig.mp ht
    unfold vadStep specVadStep
    rw [ht, hm]
    simp only [Bool.true_eq_false, if_false]
    rw [hwin, haccum, lastN_eq_pushRing]
    beta_reduce
    by_cases hcond :
        10 * countNonSpeech (pushRing n sst.window (f, c f)) > 9 * n
    · rw [if_pos hcond, if_pos hcond]
      refine ⟨by simp, rfl, rfl, by rw [hout], by simp⟩
    · rw [if_neg hcond, if_neg hcond]
      refine ⟨by simp, rfl, rfl, hout, by simp⟩
  · have hm : sst.mode = VadMode.idle := by
      cases hsm : sst.mode
      · rfl
      · exact absurd (hmode.mpr hsm) ht
    have hvf : st.voiced_frames = [] := by
      by_contra hne
      exact ht (htrig.mpr hne)
    have ht' : st.triggered = false := by
      revert ht; cases st.triggered <;> simp
    unfold vadStep specVadStep
    rw [ht', hm]
    simp only [if_true]
    rw [hwin, haccum, lastN_eq_pushRing]
    beta_reduce
    by_cases hcond :
        10 * countSpeech (pushRing n sst.window (f, c f)) > 9 * n
    · rw [if_pos hcond, if_pos hcond]
      have hne : pushRing n sst.window (f, c f) ≠ [] := by
        intro hemp
        rw [hemp] at hcond
        simp [countSpeech] at hcond
      refine ⟨by simp, rfl, rfl, hout, ?_⟩
      simp only [true_iff]
      rw [← haccum, hvf]
      simpa using hne
    · rw [if_neg hcond, if_neg hcond]
      exact ⟨by simp [hm, ht'], rfl, by simp [haccum], by simp [hout],
        by simp [ht', ← haccum, hvf]⟩

/-- The loop of `vad_collector` matches the capacity-threshold
specification machine on every frame sequence. -/
theorem vadFold_corr (n : ℕ) (c : Frame → Bool) (frames : List Frame) :
    ∀ (st : VadState) (sst : SpecVadState), VadCorr st sst →
      VadCorr (frames.foldl (vadStep n c) st)
        (frames.foldl (specVadStep n (fun _ => n) c) sst) := by
  induction frames with
  | nil => intro st sst h; exact h
  | cons f rest ih =>
    intro st sst h
    exact ih _ _ (vadStep_corr n c st sst f h)

/-- C1 counterexample: with the literal spec threshold "more than 90% of
the *buffered* frames" (`base = fun w => w.length`), a single all-speech
frame triggers immediately (1 > 0.9·1) and yields a segment, while the
source's machine — whose threshold is relative to the ring buffer's fixed
capacity `N = 300/30 = 10` — does not trigger and returns no segment. -/
theorem vad_collector_ne_spec_literal_machine :
    vad_collector 30 300 (fun _ => true) [⟨[], 0, 1⟩] ≠
      specVadRun (300 / 30) (fun w => w.length) (fun _ => true)
        [⟨[], 0, 1⟩] := by
  have hL : vad_collector 30 300 (fun _ => true) [⟨[], 0, 1⟩] = [] := by
    decide
  have hR : specVadRun (300 / 30) (fun w => w.length) (fun _ => true)
      [⟨[], 0, 1⟩] = [(0, 1)] := by
    norm_num [specVadRun, specVadStep, lastN, countSpeech, countNonSpeech,
      closeSegment]
  rw [hL, hR]
  simp

/-- C1 (amended): the VAD state machine behaves as the specification
describes it *with the 90% thresholds taken relative to the ring buffer's
fixed capacity `N = padding_duration_ms / frame_duration_ms`* (not the
number of currently buffered frames): in `IDLE` each (frame, is_speech)
pair is pushed into the ring buffer and once the speech count exceeds
`0.9·N` the machine flushes all buffered frames into the voiced-frame
accumulator, clears the buffer and becomes `TRIGGERED`; in `TRIGGERED`
each frame is appended to the accumulator and pushed into the buffer, and
once the non-speech count exceeds `0.9·N` the segment
`(first.timestamp, last.timestamp + last.duration)` is emitted and both
the buffer and the accumulator are cleared. -/
theorem vad_collector_eq_capacity_spec_machine
    (frame_duration_ms padding_duration_ms : ℕ) (is_speech : Frame → Bool)
    (frames : List Frame) :
    vad_collector frame_duration_ms padding_duration_ms is_speech frames =
      specVadRun (padding_duration_ms / frame_duration_ms)
        (fun _ => padding_duration_ms / frame_duration_ms) is_speech
        frames := by
  have h := vadFold_corr (padding_duration_ms / frame_duration_ms)
    is_speech frames initVadState ⟨VadMode.idle, [], [], []⟩
    ⟨by simp [initVadState], rfl, rfl, rfl, by simp [initVadState]⟩
  obtain ⟨hmode, hwin, haccum, hout, htrig⟩ := h
  simp only [vad_collector, specVadRun]
  split
  next hG =>
    have ht : (frames.foldl
        (vadStep (padding_duration_ms / frame_duration_ms) is_speech)
        initVadState).triggered = true := hmode.mpr hG
    have hvf := htrig.mp ht
    unfold vadFinish
    rw [if_neg hvf, hout, haccum]
  next hG =>
    have hvf : (frames.foldl
        (vadStep (padding_duration_ms / frame_duration_ms) is_speech)
        initVadState).voiced_frames = [] := by
      by_contra hne
      have := hmode.mp (htrig.mpr hne)
      rw [hG] at this
      exact absurd this (by simp)
    unfold vadFinish
    rw [if_pos hvf, hout]

/-! ### C4: the in-progress voiced run is emitted when the input ends -/

/-- C4: whenever the state machine is still `TRIGGERED` after consuming
the whole frame sequence, the voiced-frame accumulator is nonempty and the
collector's output is exactly the loop's segments followed by one final
segment closing the in-progress voiced run (first accumulated frame's
timestamp, last accumulated frame's timestamp + duration) — no started
segment is dropped. -/
theorem vad_collector_flushes_final_segment
    (frame_duration_ms padding_duration_ms : ℕ) (is_speech : Frame → Bool)
    (frames : List Frame)
    (h : (frames.foldl
        (vadStep (padding_duration_ms / frame_duration_ms) is_speech)
        initVadState).triggered = true) :
    vad_collector frame_duration_ms padding_duration_ms is_speech frames =
      (frames.foldl
          (vadStep (padding_duration_ms / frame_duration_ms) is_speech)
          initVadState).segments ++
        [closeSegment (frames.foldl
            (vadStep (padding_duration_ms / frame_duration_ms) is_speech)
            initVadState).voiced_frames] ∧
    (frames.foldl
        (vadStep (padding_duration_ms / frame_duration_ms) is_speech)
        initVadState).voiced_frames ≠ [] := by
  have hc := vadFold_corr (padding_duration_ms / frame_duration_ms)
    is_speech frames initVadState ⟨VadMode.idle, [], [], []⟩
    ⟨by simp [initVadState], rfl, rfl, rfl, by simp [initVadState]⟩
  obtain ⟨_, _, _, _, htrig⟩ := hc
  have hvf := htrig.mp h
  refine ⟨?_, hvf⟩
  simp only [vad_collector]
  unfold vadFinish
  rw [if_neg hvf]

/-- Witness for C4: a single all-speech frame with `N = 1` leaves the
machine `TRIGGERED`, and the final voiced run is emitted. -/
theorem vad_collector_flushes_final_segment_witness :
    vad_collector 30 30 (fun _ => true) [⟨[], 0, 1⟩] =
      (List.foldl (vadStep (30 / 30) (fun _ => true)) initVadState
          [⟨[], 0, 1⟩]).segments ++
        [closeSegment (List.foldl (vadStep (30 / 30) (fun _ => true))
            initVadState [⟨[], 0, 1⟩]).voiced_frames] :=
  (vad_collector_flushes_final_segment 30 30 (fun _ => true) [⟨[], 0, 1⟩]
    (by decide)).1

/-! ### C2: segments are ordered, non-overlapping, and non-degenerate -/

/-- The contiguity contract of the `Frame` data model (spec §3): a frame
ends no later than the next one begins. -/
def FrameRel (a b : Frame) : Prop :=
  a.timestamp + a.duration ≤ b.timestamp

theorem pushRing_eq (n : ℕ) (buf : List (Frame × Bool)) (x : Frame × Bool) :
    pushRing n buf x = (buf ++ [x]).drop ((buf ++ [x]).length - n) := rfl

theorem mem_pushRing {n : ℕ} {buf : List (Frame × Bool)}
    {x p : Frame × Bool} (hp : p ∈ pushRing n buf x) : p ∈ buf ∨ p = x := by
  rw [pushRing_eq] at hp
  have hmem := List.mem_of_mem_drop hp
  rcases List.mem_append.mp hmem with h | h
  · exact Or.inl h
  · exact Or.inr (by simpa using h)

theorem pushRing_map_chain {n : ℕ} {buf : List (Frame × Bool)}
    {x : Frame × Bool} (hchain : (buf.map Prod.fst).Chain' FrameRel)
    (hlast : ∀ p ∈ buf, FrameRel p.1 x.1) :
    ((pushRing n buf x).map Prod.fst).Chain' FrameRel := by
  have h1 : ((buf ++ [x]).map Prod.fst).Chain' FrameRel := by
    rw [List.map_append, List.chain'_append]
    refine ⟨hchain, List.chain'_singleton _, ?_⟩
    intro y hy z hz
    simp only [List.map_cons, List.map_nil, List.head?_cons, Option.mem_def,
      Option.some.injEq] at hz
    subst hz
    obtain ⟨p, hp, rfl⟩ := List.mem_map.mp (List.mem_of_mem_getLast? hy)
    exact hlast p hp
  rw [pushRing_eq, List.map_drop]
  exact h1.suffix (List.drop_suffix _ _)

theorem getLastD_cons_cons (a b d : Frame) (l : List Frame) :
    (a :: b :: l).getLastD d = (b :: l).getLastD d := by
  simp [List.getLastD_eq_getLast?, List.getLast?_cons_cons]

theorem getLastD_mem (l : List Frame) (hne : l ≠ []) :
    l.getLastD default ∈ l := by
  rw [List.getLastD_eq_getLast?, List.getLast?_eq_getLast l hne]
  simp only [Option.getD_some]
  exact List.getLast_mem hne

theorem headD_mem (l : List Frame) (hne : l ≠ []) : l.headD default ∈ l := by
  cases l with
  | nil => exact absurd rfl hne
  | cons a l => simp

theorem frameChain_head_le_last (a : Frame) (l : List Frame)
    (hch : (a :: l).Chain' FrameRel)
    (hpos : ∀ f ∈ a :: l, 0 < f.duration) :
    a.timestamp ≤ ((a :: l).getLastD default).timestamp := by
  induction l generalizing a with
  | nil => simp
  | cons b l' ih =>
    rw [getLastD_cons_cons]
    have h1 : FrameRel a b := (List.chain'_cons.mp hch).1
    have h2 := ih b (List.chain'_cons.mp hch).2
      (fun f hf => hpos f (List.mem_cons_of_mem a hf))
    have h3 : 0 < a.duration := hpos a (List.mem_cons_self a _)
    have h4 : a.timestamp ≤ b.timestamp := by
      unfold FrameRel at h1
      linarith
    linarith

/-- A voiced run with positive durations and in-order frames closes to a
non-degenerate segment: start < end. -/
theorem closeSegment_lt (vf : List Frame) (hne : vf ≠ [])
    (hch : vf.Chain' FrameRel) (hpos : ∀ f ∈ vf, 0 < f.duration) :
    (closeSegment vf).1 < (closeSegment vf).2 := by
  cases vf with
  | nil => exact absurd rfl hne
  | cons a l =>
    unfold closeSegment
    simp only [List.headD_cons]
    have h1 := frameChain_head_le_last a l hch hpos
    have h2 : 0 < ((a :: l).getLastD default).duration :=
      hpos _ (getLastD_mem _ (by simp))
    linarith

/-- Loop invariant of `vad_collector`, relative to a lower bound `lb` on
all future frame timestamps: emitted segments are non-degenerate, ordered
and non-overlapping, and everything still buffered or accumulated lies
between the last emitted segment and `lb`. -/
structure VadLoopInv (st : VadState) (lb : ℚ) : Prop where
  segs_lt : ∀ s ∈ st.segments, s.1 < s.2
  segs_chain : st.segments.Chain' (fun s t => s.2 ≤ t.1)
  segs_lb : ∀ s ∈ st.segments, s.2 ≤ lb
  rb_chain : (st.ring_buffer.map Prod.fst).Chain' FrameRel
  rb_pos : ∀ p ∈ st.ring_buffer, 0 < p.1.duration
  rb_lb : ∀ p ∈ st.ring_buffer, p.1.timestamp + p.1.duration ≤ lb
  rb_after : ∀ s ∈ st.segments, ∀ p ∈ st.ring_buffer, s.2 ≤ p.1.timestamp
  vf_chain : st.voiced_frames.Chain' FrameRel
  vf_pos : ∀ f ∈ st.voiced_frames, 0 < f.duration
  vf_lb : ∀ f ∈ st.voiced_frames, f.timestamp + f.duration ≤ lb
  vf_after : ∀ s ∈ st.segments, ∀ f ∈ st.voiced_frames, s.2 ≤ f.timestamp
  idle_vf : st.triggered = false → st.voiced_frames = []

theorem VadLoopInv.mono {st : VadState} {lb lb' : ℚ} (h : VadLoopInv st lb)
    (hle : lb ≤ lb') : VadLoopInv st lb' :=
  { h with
    segs_lb := fun s hs => le_trans (h.segs_lb s hs) hle
    rb_lb := fun p hp => le_trans (h.rb_lb p hp) hle
    vf_lb := fun f hf => le_trans (h.vf_lb f hf) hle }

theorem initVadState_inv (lb : ℚ) : VadLoopInv initVadState lb := by
  constructor <;> simp [initVadState]

/-- One `vad_collector` step preserves the loop invariant: if the
invariant holds at lower bound `frame.timestamp` (every buffered item ends
by the time the incoming frame starts), it holds after the step at any
bound past the incoming frame's end. -/
theorem vadStep_inv (n : ℕ) (c : Frame → Bool) (st : VadState) (f : Frame)
    (lb' : ℚ) (hinv : VadLoopInv st f.timestamp) (hdur : 0 < f.duration)
    (hlb' : f.timestamp + f.duration ≤ lb') : VadLoopInv (vadStep n c st f) lb' := by
  have hts_lb' : f.timestamp ≤ lb' := by linarith
  have hrb_rel : ∀ p ∈ st.ring_buffer, FrameRel p.1 (f, c f).1 :=
    fun p hp => hinv.rb_lb p hp
  simp only [vadStep]
  by_cases ht : st.triggered = false
  · rw [if_pos ht]
    have hvf0 : st.voiced_frames = [] := hinv.idle_vf ht
    by_cases hcond :
        10 * countSpeech (pushRing n st.ring_buffer (f, c f)) > 9 * n
    · rw [if_pos hcond]
      refine ⟨hinv.segs_lt, hinv.segs_chain,
        fun s hs => le_trans (hinv.segs_lb s hs) hts_lb',
        by simp, by simp, by simp, by simp, ?_, ?_, ?_, ?_, by simp⟩
      · show ((st.voiced_frames ++
            (pushRing n st.ring_buffer (f, c f)).map Prod.fst).Chain' FrameRel)
        rw [hvf0, List.nil_append]
        exact pushRing_map_chain hinv.rb_chain hrb_rel
      · intro g hg
        rcases List.mem_append.mp hg with h | h
        · exact hinv.vf_pos g h
        · obtain ⟨p, hp, rfl⟩ := List.mem_map.mp h
          rcases mem_pushRing hp with h' | h'
          · exact hinv.rb_pos p h'
          · rw [h']
            exact hdur
      · intro g hg
        rcases List.mem_append.mp hg with h | h
        · exact le_trans (hinv.vf_lb g h) hts_lb'
        · obtain ⟨p, hp, rfl⟩ := List.mem_map.mp h
          rcases mem_pushRing hp with h' | h'
          · exact le_trans (hinv.rb_lb p h') hts_lb'
          · rw [h']
            exact hlb'
      · intro s hs g hg
        rcases List.mem_append.mp hg with h | h
        · exact hinv.vf_after s hs g h
        · obtain ⟨p, hp, rfl⟩ := List.mem_map.mp h
          rcases mem_pushRing hp with h' | h'
          · exact hinv.rb_after s hs p h'
          · rw [h']
            exact hinv.segs_lb s hs
    · rw [if_neg hcond]
      refine ⟨hinv.segs_lt, hinv.segs_chain,
        fun s hs => le_trans (hinv.segs_lb s hs) hts_lb',
        pushRing_map_chain hinv.rb_chain hrb_rel, ?_, ?_, ?_,
        by rw [hvf0] at *; exact List.chain'_nil,
        by rw [hvf0] at *; simp,
        by rw [hvf0] at *; simp,
        by rw [hvf0] at *; simp,
        fun _ => hvf0⟩
      · intro p hp
        rcases mem_pushRing hp with h' | h'
        · exact hinv.rb_pos p h'
        · rw [h']
          exact hdur
      · intro p hp
        rcases mem_pushRing hp with h' | h'
        · exact le_trans (hinv.rb_lb p h') hts_lb'
        · rw [h']
          exact hlb'
      · intro s hs p hp
        rcases mem_pushRing hp with h' | h'
        · exact hinv.rb_after s hs p h'
        · rw [h']
          exact hinv.segs_lb s hs
  · rw [if_neg ht]
    have hvfch : (st.voiced_frames ++ [f]).Chain' FrameRel := by
      rw [List.chain'_append]
      refine ⟨hinv.vf_chain, List.chain'_singleton _, ?_⟩
      intro y hy z hz
      simp only [List.head?_cons, Option.mem_def, Option.some.injEq] at hz
      subst hz
      exact hinv.vf_lb y (List.mem_of_mem_getLast? hy)
    have hvfpos : ∀ g ∈ st.voiced_frames ++ [f], 0 < g.duration := by
      intro g hg
      rcases List.mem_append.mp hg with h | h
      · exact hinv.vf_pos g h
      · simp only [List.mem_singleton] at h
        rw [h]
        exact hdur
    have hvfne : st.voiced_frames ++ [f] ≠ [] := by simp
    have hclose_after : ∀ s ∈ st.segments,
        s.2 ≤ (closeSegment (st.voiced_frames ++ [f])).1 := by
      intro s hs
      unfold closeSegment
      rcases List.mem_append.mp (headD_mem _ hvfne) with h | h
      · have hh : (st.voiced_frames ++ [f]).headD default ∈ st.voiced_frames := h
        exact hinv.vf_after s hs _ hh
      · simp only [List.mem_singleton] at h
        rw [h]
        exact hinv.segs_lb s hs
    by_cases hcond :
        10 * countNonSpeech (pushRing n st.ring_buffer (f, c f)) > 9 * n
    · rw [if_pos hcond]
      refine ⟨?_, ?_, ?_, by simp, by simp, by simp, by simp,
        List.chain'_nil, by simp, by simp, by simp, fun _ => rfl⟩
      · intro s hs
        rcases List.mem_append.mp hs with h | h
        · exact hinv.segs_lt s h
        · simp only [List.mem_singleton] at h
          rw [h]
          exact closeSegment_lt _ hvfne hvfch hvfpos
      · rw [List.chain'_append]
        refine ⟨hinv.segs_chain, List.chain'_singleton _, ?_⟩
        intro y hy z hz
        simp only [List.head?_cons, Option.mem_def, Option.some.injEq] at hz
        subst hz
        exact hclose_after y (List.mem_of_mem_getLast? hy)
      · intro s hs
        rcases List.mem_append.mp hs with h | h
        · exact le_trans (hinv.segs_lb s h) hts_lb'
        · simp only [List.mem_singleton] at h
          rw [h]
          unfold closeSegment
          rw [List.getLastD_concat]
          exact hlb'
    · rw [if_neg hcond]
      refine ⟨hinv.segs_lt, hinv.segs_chain,
        fun s hs => le_trans (hinv.segs_lb s hs) hts_lb',
        pushRing_map_chain hinv.rb_chain hrb_rel, ?_, ?_, ?_,
        hvfch, hvfpos, ?_, ?_, by intro h; exact absurd h (by simp)⟩
      · intro p hp
        rcases mem_pushRing hp with h' | h'
        · exact hinv.rb_pos p h'
        · rw [h']
          exact hdur
      · intro p hp
        rcases mem_pushRing hp with h' | h'
        · exact le_trans (hinv.rb_lb p h') hts_lb'
        · rw [h']
          exact hlb'
      · intro s hs p hp
        rcases mem_pushRing hp with h' | h'
        · exact hinv.rb_after s hs p h'
        · rw [h']
          exact hinv.segs_lb s hs
      · intro g hg
        rcases List.mem_append.mp hg with h | h
        · exact le_trans (hinv.vf_lb g h) hts_lb'
        · simp only [List.mem_singleton] at h
          rw [h]
          exact hlb'
      · intro s hs g hg
        rcases List.mem_append.mp hg with h | h
        · exact hinv.vf_after s hs g h
        · simp only [List.mem_singleton] at h
          rw [h]
          exact hinv.segs_lb s hs

/-- The loop invariant holds after folding any in-order frame sequence
with positive durations. -/
theorem vadFold_inv (n : ℕ) (c : Frame → Bool) :
    ∀ (frames : List Frame) (st : VadState) (lb : ℚ),
      VadLoopInv st lb → frames.Chain' FrameRel →
      (∀ f ∈ frames, 0 < f.duration) →
      (∀ f ∈ frames.head?, lb ≤ f.timestamp) →
      ∃ lb', VadLoopInv (frames.foldl (vadStep n c) st) lb' := by
  intro frames
  induction frames with
  | nil =>
    intro st lb h _ _ _
    exact ⟨lb, h⟩
  | cons f rest ih =>
    intro st lb h hch hpos hhead
    have hlb : lb ≤ f.timestamp := hhead f rfl
    have hdur : 0 < f.duration := hpos f (List.mem_cons_self f rest)
    have h2 := vadStep_inv n c st f (f.timestamp + f.duration) (h.mono hlb)
      hdur le_rfl
    exact ih (vadStep n c st f) (f.timestamp + f.duration) h2
      (List.chain'_cons'.mp hch).2
      (fun g hg => hpos g (List.mem_cons_of_mem f hg))
      (fun g hg => (List.chain'_cons'.mp hch).1 g hg)

theorem segChain_le_of_mem (a : ℚ × ℚ) (l : List (ℚ × ℚ))
    (hlt : ∀ s ∈ l, s.1 < s.2)
    (hch : (a :: l).Chain' fun s t => s.2 ≤ t.1) :
    ∀ b ∈ l, a.2 ≤ b.1 := by
  induction l generalizing a with
  | nil =>
    intro b hb
    simp at hb
  | cons x l' ih =>
    intro b hb
    have h1 : a.2 ≤ x.1 := (List.chain'_cons.mp hch).1
    rcases List.mem_cons.mp hb with rfl | hb'
    · exact h1
    · have h2 := ih x (fun s hs => hlt s (List.mem_cons_of_mem x hs))
        (List.chain'_cons.mp hch).2 b hb'
      have h3 : x.1 < x.2 := hlt x (List.mem_cons_self x l')
      linarith

/-- Non-degenerate, chained (end ≤ next start) segments are pairwise
strictly ordered by start time. -/
theorem segs_sorted_pairwise (l : List (ℚ × ℚ))
    (hlt : ∀ s ∈ l, s.1 < s.2)
    (hch : l.Chain' fun s t => s.2 ≤ t.1) :
    l.Pairwise fun s t => s.1 < t.1 := by
  induction l with
  | nil => exact List.Pairwise.nil
  | cons a l ih =>
    rw [List.pairwise_cons]
    refine ⟨?_, ih (fun s hs => hlt s (List.mem_cons_of_mem a hs))
      (List.chain'_cons'.mp hch).2⟩
    intro b hb
    have h1 := segChain_le_of_mem a l
      (fun s hs => hlt s (List.mem_cons_of_mem a hs)) hch b hb
    have h2 := hlt a (List.mem_cons_self a l)
    linarith

/-- C2: on every frame sequence satisfying the `Frame` data-model contract
(frames in order — each ends no later than the next begins — with positive
durations), the segments returned by `vad_collector` are non-degenerate
(`start < end`), adjacent segments satisfy `end ≤ next.start`
(non-overlapping), and starts are pairwise strictly increasing. -/
theorem vad_collector_segments_ordered (frame_duration_ms
    padding_duration_ms : ℕ) (is_speech : Frame → Bool)
    (frames : List Frame) (hchain : frames.Chain' FrameRel)
    (hpos : ∀ f ∈ frames, 0 < f.duration) :
    (∀ s ∈ vad_collector frame_duration_ms padding_duration_ms is_speech
        frames, s.1 < s.2) ∧
    (vad_collector frame_duration_ms padding_duration_ms is_speech
        frames).Chain' (fun s t => s.2 ≤ t.1) ∧
    (vad_collector frame_duration_ms padding_duration_ms is_speech
        frames).Pairwise (fun s t => s.1 < t.1) := by
  have hhd : ∀ g ∈ frames.head?,
      (frames.headD default).timestamp ≤ g.timestamp := by
    intro g hg
    cases frames with
    | nil => simp at hg
    | cons a l =>
      simp only [List.head?_cons, Option.mem_def, Option.some.injEq] at hg
      subst hg
      simp
  obtain ⟨lb', hfin⟩ := vadFold_inv
    (padding_duration_ms / frame_duration_ms) is_speech frames initVadState
    (frames.headD default).timestamp
    (initVadState_inv _) hchain hpos hhd
  have hres : vad_collector frame_duration_ms padding_duration_ms is_speech
      frames = vadFinish (frames.foldl
        (vadStep (padding_duration_ms / frame_duration_ms) is_speech)
        initVadState) := rfl
  rw [hres]
  unfold vadFinish
  by_cases hvf : (frames.foldl
      (vadStep (padding_duration_ms / frame_duration_ms) is_speech)
      initVadState).voiced_frames = []
  · rw [if_pos hvf]
    exact ⟨hfin.segs_lt, hfin.segs_chain,
      segs_sorted_pairwise _ hfin.segs_lt hfin.segs_chain⟩
  · rw [if_neg hvf]
    have hclose_lt := closeSegment_lt _ hvf hfin.vf_chain hfin.vf_pos
    have hclose_after : ∀ s ∈ (frames.foldl
        (vadStep (padding_duration_ms / frame_duration_ms) is_speech)
        initVadState).segments,
        s.2 ≤ (closeSegment (frames.foldl
          (vadStep (padding_duration_ms / frame_duration_ms) is_speech)
          initVadState).voiced_frames).1 := by
      intro s hs
      unfold closeSegment
      exact hfin.vf_after s hs _ (headD_mem _ hvf)
    have hlt : ∀ s ∈ (frames.foldl
        (vadStep (padding_duration_ms / frame_duration_ms) is_speech)
        initVadState).segments ++ [closeSegment (frames.foldl
          (vadStep (padding_duration_ms / frame_duration_ms) is_speech)
          initVadState).voiced_frames], s.1 < s.2 := by
      intro s hs
      rcases List.mem_append.mp hs with h | h
      · exact hfin.segs_lt s h
      · simp only [List.mem_singleton] at h
        rw [h]
        exact hclose_lt
    have hch : ((frames.foldl
        (vadStep (padding_duration_ms / frame_duration_ms) is_speech)
        initVadState).segments ++ [closeSegment (frames.foldl
          (vadStep (padding_duration_ms / frame_duration_ms) is_speech)
          initVadState).voiced_frames]).Chain' (fun s t => s.2 ≤ t.1) := by
      rw [List.chain'_append]
      refine ⟨hfin.segs_chain, List.chain'_singleton _, ?_⟩
      intro y hy z hz
      simp only [List.head?_cons, Option.mem_def, Option.some.injEq] at hz
      subst hz
      exact hclose_after y (List.mem_of_mem_getLast? hy)
    exact ⟨hlt, hch, segs_sorted_pairwise _ hlt hch⟩

/-- Witness for C2 at a concrete in-order frame sequence. -/
theorem vad_collector_segments_ordered_witness :
    (vad_collector 30 30 (fun _ => true)
      [⟨[], 0, 1⟩, ⟨[], 1, 1⟩]).Chain' (fun s t => s.2 ≤ t.1) :=
  (vad_collector_segments_ordered 30 30 (fun _ => true)
    [⟨[], 0, 1⟩, ⟨[], 1, 1⟩]
    (by norm_num [List.chain'_cons, List.chain'_singleton, FrameRel])
    (by intro f hf; fin_cases hf <;> norm_num)).2.1

/-! ### C5 / C6: chunked enhancement covers the input exactly -/

theorem numChunks_nil (cs : ℕ) : numChunks cs [] = 0 := by
  unfold numChunks
  simp only [List.length_nil, Nat.zero_add]
  cases cs with
  | zero => rfl
  | succ k => exact Nat.div_eq_of_lt (by omega)

theorem numChunks_succ (cs : ℕ) (audio : List ℚ) (hcs : 0 < cs)
    (hne : audio.length ≠ 0) :
    numChunks cs audio = numChunks cs (audio.drop cs) + 1 := by
  unfold numChunks
  rw [List.length_drop]
  rw [Nat.div_eq_sub_div hcs (by omega)]
  rcases le_or_lt cs audio.length with h | h
  · have e1 : audio.length + cs - 1 - cs = audio.length - cs + cs - 1 := by
      omega
    rw [e1]
  · have e1 : audio.length + cs - 1 - cs = audio.length - 1 := by omega
    have e2 : audio.length - cs + cs - 1 = cs - 1 := by omega
    rw [e1, e2, Nat.div_eq_of_lt (by omega), Nat.div_eq_of_lt (by omega)]

theorem audioChunk_zero (cs : ℕ) (audio : List ℚ) :
    audioChunk cs audio 0 = audio.take cs := by
  unfold audioChunk
  simp only [Nat.zero_mul, List.drop_zero, Nat.zero_add, Nat.sub_zero]
  apply List.take_eq_take.mpr
  omega

theorem audioChunk_succ (cs : ℕ) (audio : List ℚ) (i : ℕ) :
    audioChunk cs audio (i + 1) = audioChunk cs (audio.drop cs) i := by
  simp only [audioChunk, List.drop_drop, List.length_drop]
  have h1 : (i + 1) * cs = i * cs + cs := by ring
  rw [h1]
  congr 1
  · omega
  · congr 1
    omega

/-- The input chunks partition the waveform: concatenated back in order
they reproduce it exactly. -/
theorem audioChunks_flatten (cs : ℕ) (hcs : 0 < cs) :
    ∀ (k : ℕ) (audio : List ℚ), audio.length ≤ k →
      ((List.range (numChunks cs audio)).map (audioChunk cs audio)).flatten
        = audio := by
  intro k
  induction k with
  | zero =>
    intro audio h
    have h0 : audio = [] := List.length_eq_zero.mp (by omega)
    subst h0
    rw [numChunks_nil]
    simp
  | succ k ih =>
    intro audio h
    by_cases hne : audio = []
    · subst hne
      rw [numChunks_nil]
      simp
    · rw [numChunks_succ cs audio hcs
        (by simpa [List.length_eq_zero] using hne)]
      rw [List.range_succ_eq_map, List.map_cons, List.map_map,
        List.flatten_cons]
      have htail : (List.range (numChunks cs (audio.drop cs))).map
          (audioChunk cs audio ∘ Nat.succ) =
          (List.range (numChunks cs (audio.drop cs))).map
            (audioChunk cs (audio.drop cs)) := by
        apply List.map_congr_left
        intro i _
        simp only [Function.comp_apply, Nat.succ_eq_add_one]
        exact audioChunk_succ cs audio i
      rw [htail, ih (audio.drop cs)
        (by simp only [List.length_drop]; omega)]
      rw [audioChunk_zero]
      exact List.take_append_drop cs audio

theorem enhancedChunk_length (enhanceFn : List ℚ → Option (List ℚ))
    (cs : ℕ) (audio : List ℚ) (i : ℕ)
    (hLen : ∀ chunk e, enhanceFn chunk = some e → e.length = chunk.length) :
    (enhancedChunk enhanceFn cs audio i).length =
      (audioChunk cs audio i).length := by
  unfold enhancedChunk
  cases hf : enhanceFn (audioChunk cs audio i) with
  | none => rfl
  | some e => exact hLen _ e hf

theorem enhanceConcat_cons (enhanceFn : List ℚ → Option (List ℚ)) (cs : ℕ)
    (audio : List ℚ) (hcs : 0 < cs) (hne : audio ≠ []) :
    enhanceConcat enhanceFn cs audio =
      enhancedChunk enhanceFn cs audio 0 ++
        enhanceConcat enhanceFn cs (audio.drop cs) := by
  unfold enhanceConcat
  rw [numChunks_succ cs audio hcs (by simpa [List.length_eq_zero] using hne)]
  rw [List.range_succ_eq_map, List.map_cons, List.map_map,
    List.flatten_cons]
  congr 1
  congr 1
  apply List.map_congr_left
  intro i _
  simp only [Function.comp_apply, Nat.succ_eq_add_one]
  unfold enhancedChunk
  rw [audioChunk_succ]

/-- C5: chunked enhancement partitions the waveform into successive
fixed-size chunks (the partition reassembles the input exactly); whenever
successful inference preserves a chunk's sample count, the concatenated
output has exactly the input's total sample count; and when every chunk's
inference fails the output is the input itself (full
fallback-to-original reconstruction).  `audio ≠ []` reflects that
`torch.cat` requires a nonempty chunk list. -/
theorem enhance_audio_chunked_preserves_samples
    (enhanceFn : List ℚ → Option (List ℚ)) (sr chunk_duration_seconds : ℕ)
    (audio : List ℚ) (hcs : 0 < chunk_duration_seconds * sr)
    (hLen : ∀ chunk e, enhanceFn chunk = some e → e.length = chunk.length)
    (hne : audio ≠ []) :
    ((List.range (numChunks (chunk_duration_seconds * sr) audio)).map
        (audioChunk (chunk_duration_seconds * sr) audio)).flatten = audio ∧
    (enhance_audio_chunked enhanceFn sr chunk_duration_seconds audio).length
      = audio.length ∧
    enhance_audio_chunked (fun _ => none) sr chunk_duration_seconds audio
      = audio := by
  have hpart := audioChunks_flatten (chunk_duration_seconds * sr) hcs
    audio.length audio le_rfl
  refine ⟨hpart, ?_, ?_⟩
  · show (enhanceConcat enhanceFn (chunk_duration_seconds * sr) audio).length
      = audio.length
    unfold enhanceConcat
    rw [List.length_flatten, List.map_map]
    have hmapeq : (List.range (numChunks (chunk_duration_seconds * sr)
        audio)).map
          (List.length ∘ enhancedChunk enhanceFn
            (chunk_duration_seconds * sr) audio) =
        (List.range (numChunks (chunk_duration_seconds * sr) audio)).map
          (List.length ∘ audioChunk (chunk_duration_seconds * sr) audio) :=
      List.map_congr_left (fun i _ =>
        enhancedChunk_length enhanceFn _ audio i hLen)
    rw [hmapeq]
    have := congrArg List.length hpart
    rw [List.length_flatten, List.map_map] at this
    exact this
  · show enhanceConcat (fun _ => none) (chunk_duration_seconds * sr) audio
      = audio
    unfold enhanceConcat
    have : (List.range (numChunks (chunk_duration_seconds * sr)
        audio)).map
          (enhancedChunk (fun _ => none) (chunk_duration_seconds * sr)
            audio) =
        (List.range (numChunks (chunk_duration_seconds * sr) audio)).map
          (audioChunk (chunk_duration_seconds * sr) audio) :=
      List.map_congr_left (fun i _ => rfl)
    rw [this]
    exact hpart

/-- Witness for C5: two chunks of size 2 over a 3-sample waveform with
all-failing inference reconstruct the input. -/
theorem enhance_audio_chunked_preserves_samples_witness :
    enhance_audio_chunked (fun _ => none) 1 2 [1, 2, 3] = [1, 2, 3] :=
  (enhance_audio_chunked_preserves_samples (fun _ => none) 1 2 [1, 2, 3]
    (by decide) (fun c e h => absurd h (by simp)) (by simp)).2.2

/-- C6: a chunk whose inference fails is absorbed locally — the model of
`enhance_audio_chunked` is total (the error never propagates), and the
output window at the failed chunk's position is the original, unenhanced
chunk, so the output still covers the full input timeline.  (Successful
inference is assumed to preserve a chunk's sample count, which is what
keeps the windows aligned.) -/
theorem enhance_audio_chunked_chunk_fallback
    (enhanceFn : List ℚ → Option (List ℚ)) (sr chunk_duration_seconds : ℕ)
    (hcs : 0 < chunk_duration_seconds * sr)
    (hLen : ∀ chunk e, enhanceFn chunk = some e → e.length = chunk.length) :
    ∀ (i : ℕ) (audio : List ℚ),
      i < numChunks (chunk_duration_seconds * sr) audio →
      enhanceFn (audioChunk (chunk_duration_seconds * sr) audio i) = none →
      ((enhance_audio_chunked enhanceFn sr chunk_duration_seconds
            audio).drop (i * (chunk_duration_seconds * sr))).take
          (audioChunk (chunk_duration_seconds * sr) audio i).length =
        audioChunk (chunk_duration_seconds * sr) audio i := by
  intro i
  induction i with
  | zero =>
    intro audio hi hfail
    have hne : audio ≠ [] := by
      intro h0
      rw [h0, numChunks_nil] at hi
      exact absurd hi (by omega)
    show ((enhanceConcat enhanceFn (chunk_duration_seconds * sr)
        audio).drop (0 * (chunk_duration_seconds * sr))).take _ = _
    rw [enhanceConcat_cons enhanceFn (chunk_duration_seconds * sr) audio
      hcs hne]
    simp only [Nat.zero_mul, List.drop_zero]
    have he0 : enhancedChunk enhanceFn (chunk_duration_seconds * sr)
        audio 0 = audioChunk (chunk_duration_seconds * sr) audio 0 := by
      unfold enhancedChunk
      rw [hfail]
    rw [he0]
    exact List.take_left _ _
  | succ i ih =>
    intro audio hi hfail
    have hne : audio ≠ [] := by
      intro h0
      rw [h0, numChunks_nil] at hi
      exact absurd hi (by omega)
    have hnum := numChunks_succ (chunk_duration_seconds * sr) audio hcs
      (by simpa [List.length_eq_zero] using hne)
    have hi' : i < numChunks (chunk_duration_seconds * sr)
        (audio.drop (chunk_duration_seconds * sr)) := by omega
    have h2cs : 2 * (chunk_duration_seconds * sr) ≤
        audio.length + (chunk_duration_seconds * sr) - 1 := by
      have h2 : 2 ≤ (audio.length + (chunk_duration_seconds * sr) - 1) /
          (chunk_duration_seconds * sr) := by
        have h3 : 2 ≤ numChunks (chunk_duration_seconds * sr) audio := by
          omega
        simpa [numChunks] using h3
      exact (Nat.le_div_iff_mul_le hcs).mp h2
    have hL : (chunk_duration_seconds * sr) + 1 ≤ audio.length := by omega
    have he0len : (enhancedChunk enhanceFn (chunk_duration_seconds * sr)
        audio 0).length = chunk_duration_seconds * sr := by
      rw [enhancedChunk_length enhanceFn _ audio 0 hLen, audioChunk_zero]
      simp only [List.length_take]
      omega
    show ((enhanceConcat enhanceFn (chunk_duration_seconds * sr)
        audio).drop ((i + 1) * (chunk_duration_seconds * sr))).take _ = _
    rw [enhanceConcat_cons enhanceFn (chunk_duration_seconds * sr) audio
      hcs hne]
    have hidx : (i + 1) * (chunk_duration_seconds * sr) =
        (enhancedChunk enhanceFn (chunk_duration_seconds * sr)
          audio 0).length + i * (chunk_duration_seconds * sr) := by
      rw [he0len]
      ring
    rw [hidx, List.drop_append, audioChunk_succ]
    rw [audioChunk_succ] at hfail
    exact ih (audio.drop (chunk_duration_seconds * sr)) hi' hfail

/-- Witness for C6: with two chunks of size 2 over `[1, 2, 3]` and
all-failing inference, the second output window is the original second
chunk. -/
theorem enhance_audio_chunked_chunk_fallback_witness :
    ((enhance_audio_chunked (fun _ => none) 1 2 [1, 2, 3]).drop
        (1 * (2 * 1))).take (audioChunk (2 * 1) [1, 2, 3] 1).length =
      audioChunk (2 * 1) [1, 2, 3] 1 :=
  enhance_audio_chunked_chunk_fallback (fun _ => none) 1 2 (by decide)
    (fun c e h => absurd h (by simp)) 1 [1, 2, 3] (by decide) rfl

/-! ### C7 / C8: clip acceptance, numbering, padding -/

theorem mapIdx_congr_fn {α β : Type} (f g : ℕ → α → β) (l : List α)
    (h : ∀ i a, f i a = g i a) : l.mapIdx f = l.mapIdx g := by
  induction l generalizing f g with
  | nil => simp
  | cons a l ih =>
    rw [List.mapIdx_cons, List.mapIdx_cons, h 0 a]
    rw [ih _ _ (fun i a => h (i + 1) a)]

/-- Closed form of the clip loop: the records are exactly the segments
with duration inside the inclusive `[min, max]` bound, numbered
consecutively from the starting counter in emission order. -/
theorem splitClipsLoop_eq (min_clip_duration max_clip_duration : ℚ)
    (video_id : String) (sample_rate sample_width : ℕ) (pcm : List ℕ)
    (start_padding end_padding : ℚ) :
    ∀ (segments : List (ℚ × ℚ)) (counter : ℕ),
      splitClipsLoop min_clip_duration max_clip_duration video_id
          sample_rate sample_width pcm start_padding end_padding segments
          counter =
        (segments.filter (fun p => decide (min_clip_duration ≤ p.2 - p.1 ∧
            p.2 - p.1 ≤ max_clip_duration))).mapIdx
          (fun j p => make_clip video_id sample_rate sample_width pcm
            start_padding end_padding (counter + j) p.1 p.2) := by
  intro segments
  induction segments with
  | nil =>
    intro counter
    rfl
  | cons seg rest ih =>
    intro counter
    obtain ⟨s, e⟩ := seg
    simp only [splitClipsLoop]
    by_cases hacc : e - s < min_clip_duration ∨ e - s > max_clip_duration
    · rw [if_pos hacc]
      rw [List.filter_cons, if_neg (by
        simp only [decide_eq_true_eq, not_and, not_le]
        intro hc
        rcases hacc with h | h
        · exact absurd hc (by linarith)
        · exact h)]
      exact ih counter
    · rw [if_neg hacc]
      push_neg at hacc
      rw [List.filter_cons, if_pos (by
        simp only [decide_eq_true_eq]
        exact hacc)]
      rw [List.mapIdx_cons]
      rw [ih (counter + 1)]
      rw [Nat.add_zero]
      congr 1
      apply mapIdx_congr_fn
      intro i a
      rw [show counter + 1 + i = counter + (i + 1) by ring]

/-- C7: a clip is materialized iff its raw duration `end − start` lies in
the inclusive bound `[MIN_CLIP_DURATION, MAX_CLIP_DURATION]`; rejected
segments consume no counter value, so accepted clips are numbered
`1, 2, 3, …` contiguously in emission order, the `j`-th record carrying
counter `j + 1` and name `<video_id>-<counter, zero-padded to 3>.wav`. -/
theorem split_with_vad_clip_acceptance (min_clip_duration
    max_clip_duration : ℚ) (video_id : String)
    (sample_rate sample_width : ℕ) (pcm : List ℕ)
    (start_padding end_padding : ℚ) (segments : List (ℚ × ℚ)) :
    split_with_vad_clips min_clip_duration max_clip_duration video_id
        sample_rate sample_width pcm start_padding end_padding segments =
      (segments.filter (fun p => decide (min_clip_duration ≤ p.2 - p.1 ∧
          p.2 - p.1 ≤ max_clip_duration))).mapIdx
        (fun j p => make_clip video_id sample_rate sample_width pcm
          start_padding end_padding (j + 1) p.1 p.2) ∧
    ∀ (j : ℕ) (hj : j < (split_with_vad_clips min_clip_duration
        max_clip_duration video_id sample_rate sample_width pcm
        start_padding end_padding segments).length),
      ((split_with_vad_clips min_clip_duration max_clip_duration video_id
          sample_rate sample_width pcm start_padding end_padding
          segments).get ⟨j, hj⟩).clip_name =
        video_id ++ "-" ++ pad3 (j + 1) ++ ".wav" := by
  have hmain : split_with_vad_clips min_clip_duration max_clip_duration
      video_id sample_rate sample_width pcm start_padding end_padding
      segments =
      (segments.filter (fun p => decide (min_clip_duration ≤ p.2 - p.1 ∧
          p.2 - p.1 ≤ max_clip_duration))).mapIdx
        (fun j p => make_clip video_id sample_rate sample_width pcm
          start_padding end_padding (j + 1) p.1 p.2) := by
    unfold split_with_vad_clips
    rw [splitClipsLoop_eq]
    apply mapIdx_congr_fn
    intro i a
    rw [Nat.add_comm 1 i]
  refine ⟨hmain, ?_⟩
  intro j hj
  simp only [List.get_eq_getElem]
  rw [List.getElem_of_eq hmain hj, List.getElem_mapIdx]
  rfl

/-- C8: every emitted clip record comes from an accepted segment `(s, e)`
and satisfies `padded_duration = round((e − s) + start_padding +
end_padding, 2)`; its payload is the re-read PCM window with
`int(start_padding·sr)` frames of zero-valued samples prepended and
`int(end_padding·sr)` frames of zero-valued samples appended (silence,
not captured audio). -/
theorem split_with_vad_padding (min_clip_duration max_clip_duration : ℚ)
    (video_id : String) (sample_rate sample_width : ℕ) (pcm : List ℕ)
    (start_padding end_padding : ℚ) (segments : List (ℚ × ℚ)) :
    ∀ clip_record ∈ split_with_vad_clips min_clip_duration
        max_clip_duration video_id sample_rate sample_width pcm
        start_padding end_padding segments,
      ∃ s e : ℚ, (s, e) ∈ segments ∧
        clip_record.padded_duration =
          round2 ((e - s) + start_padding + end_padding) ∧
        clip_record.payload =
          List.replicate ((pyInt (start_padding * sample_rate)).toNat *
              sample_width) 0 ++
            ((pcm.drop ((pyInt (s * sample_rate)).toNat * sample_width)).take
              ((pyInt ((e - s) * sample_rate)).toNat * sample_width)) ++
            List.replicate ((pyInt (end_padding * sample_rate)).toNat *
              sample_width) 0 := by
  suffices h : ∀ (segs : List (ℚ × ℚ)) (counter : ℕ),
      ∀ clip_record ∈ splitClipsLoop min_clip_duration max_clip_duration
        video_id sample_rate sample_width pcm start_padding end_padding
        segs counter,
      ∃ s e : ℚ, (s, e) ∈ segs ∧
        clip_record.padded_duration =
          round2 ((e - s) + start_padding + end_padding) ∧
        clip_record.payload =
          List.replicate ((pyInt (start_padding * sample_rate)).toNat *
              sample_width) 0 ++
            ((pcm.drop ((pyInt (s * sample_rate)).toNat * sample_width)).take
              ((pyInt ((e - s) * sample_rate)).toNat * sample_width)) ++
            List.replicate ((pyInt (end_padding * sample_rate)).toNat *
              sample_width) 0 by
    exact h segments 1
  intro segs
  induction segs with
  | nil =>
    intro counter clip_record hrec
    simp [splitClipsLoop] at hrec
  | cons seg rest ih =>
    intro counter clip_record hrec
    obtain ⟨s, e⟩ := seg
    simp only [splitClipsLoop] at hrec
    by_cases hacc : e - s < min_clip_duration ∨ e - s > max_clip_duration
    · rw [if_pos hacc] at hrec
      obtain ⟨s', e', hmem, h1, h2⟩ := ih counter clip_record hrec
      exact ⟨s', e', List.mem_cons_of_mem _ hmem, h1, h2⟩
    · rw [if_neg hacc] at hrec
      rcases List.mem_cons.mp hrec with rfl | hmem
      · exact ⟨s, e, List.mem_cons_self _ _, rfl, rfl⟩
      · obtain ⟨s', e', hmem', h1, h2⟩ := ih (counter + 1) clip_record hmem
        exact ⟨s', e', List.mem_cons_of_mem _ hmem', h1, h2⟩

/-- Witness for C8 at a concrete accepted segment `(0, 5)` with
`MIN = 4`, `MAX = 10`, `start_padding = 1`, `end_padding = 1/2`. -/
theorem split_with_vad_padding_witness :
    ∃ s e : ℚ, (s, e) ∈ [((0 : ℚ), (5 : ℚ))] ∧
      (make_clip "vid" 2 2 (List.replicate 40 7) 1 (1 / 2) 1 0
          5).padded_duration = round2 ((e - s) + 1 + 1 / 2) ∧
      (make_clip "vid" 2 2 (List.replicate 40 7) 1 (1 / 2) 1 0
          5).payload =
        List.replicate ((pyInt ((1 : ℚ) * 2)).toNat * 2) 0 ++
          (((List.replicate 40 7).drop
              ((pyInt (s * 2)).toNat * 2)).take
            ((pyInt ((e - s) * 2)).toNat * 2)) ++
          List.replicate ((pyInt ((1 / 2 : ℚ) * 2)).toNat * 2) 0 :=
  split_with_vad_padding 4 10 "vid" 2 2 (List.replicate 40 7) 1 (1 / 2)
    [(0, 5)]
    (make_clip "vid" 2 2 (List.replicate 40 7) 1 (1 / 2) 1 0 5)
    (by norm_num [split_with_vad_clips, splitClipsLoop])

/-! ### C9: intermediate-artifact cleanup on every exit path -/

/-- C9 counterexample: when the decode/transcode conversion fails
(`download_ok = true`, `conversion_ok = false`), the `RuntimeError` is
raised before `download_audio` reaches its raw-file cleanup, and
`process_video`'s `finally` removes only the temporary WAV — the raw
download artifact is left behind, so the claim "every intermediate
download artifact is removed on every exit path" is false. -/
theorem process_video_cleanup_counterexample :
    ¬ (∀ download_ok conversion_ok later_ok : Bool,
        (process_video_model download_ok conversion_ok
          later_ok).2.raw_file = false ∧
        (process_video_model download_ok conversion_ok
          later_ok).2.wav_file = false) := by
  intro h
  have hc := (h true false true).1
  simp [process_video_model, download_audio_model] at hc

/-- C9 (amended): the temporary WAV working file is removed on every exit
path (success, or an exception from any stage); the raw download artifact
is removed on every exit path *except* when the decode/transcode
conversion itself fails, in which case it is left behind. -/
theorem process_video_cleanup_amended
    (download_ok conversion_ok later_ok : Bool) :
    (process_video_model download_ok conversion_ok
      later_ok).2.wav_file = false ∧
    ((download_ok = false ∨ conversion_ok = true) →
      (process_video_model download_ok conversion_ok
        later_ok).2.raw_file = false) ∧
    (download_ok = true → conversion_ok = false →
      (process_video_model download_ok conversion_ok
        later_ok).2.raw_file = true) := by
  cases download_ok <;> cases conversion_ok <;> cases later_ok <;>
    simp [process_video_model, download_audio_model]

/-- Witness for C9 (amended) on the all-success path: both artifacts are
gone when the pipeline returns. -/
theorem process_video_cleanup_amended_witness :
    (process_video_model true true true).2.wav_file = false ∧
    (process_video_model true true true).2.raw_file = false :=
  ⟨(process_video_cleanup_amended true true true).1,
   (process_video_cleanup_amended true true true).2.1 (Or.inr rfl)⟩

/-! ### C10: clip timestamps are persisted modulo 24 hours -/

/-- C10: persisting a clip timestamp `t` (elapsed seconds, with exact
microseconds) through `save_audio_clip`'s time-of-day conversion and
reading it back through `_time_to_seconds` yields `t mod 86400`
(`t − 86400·⌊t/86400⌋`), not `t`; consequently `t` and `t + 86400`
persist to identical time-of-day records (timestamps of sources longer
than 24 hours alias). -/
theorem save_audio_clip_time_wrap (t : ℚ) (h0 : 0 ≤ t)
    (hden : (t * 1000000).den = 1) :
    time_to_seconds (seconds_to_time_obj t) =
      t - 86400 * (⌊t / 86400⌋ : ℚ) ∧
    seconds_to_time_obj (t + 86400) = seconds_to_time_obj t := by
  have hpyt : pyInt t = ⌊t⌋ := by
    unfold pyInt
    rw [if_pos h0]
  have hfl0 : (0 : ℤ) ≤ ⌊t⌋ := Int.floor_nonneg.mpr h0
  have hfract_def : Int.fract t = t - (⌊t⌋ : ℚ) := by
    linarith [Int.floor_add_fract t]
  have hk : ((t * 1000000 : ℚ).num : ℚ) = t * 1000000 :=
    (Rat.den_eq_one_iff _).mp hden
  have hm : (Int.fract t * 1000000 : ℚ) =
      (((t * 1000000 : ℚ).num - ⌊t⌋ * 1000000 : ℤ) : ℚ) := by
    rw [hfract_def]
    push_cast
    linarith [hk]
  have hm0 : (0 : ℤ) ≤ (t * 1000000 : ℚ).num - ⌊t⌋ * 1000000 := by
    have h1 : (0 : ℚ) ≤
        (((t * 1000000 : ℚ).num - ⌊t⌋ * 1000000 : ℤ) : ℚ) := by
      rw [← hm]
      exact mul_nonneg (Int.fract_nonneg t) (by norm_num)
    exact_mod_cast h1
  have hmicro : pyInt (Int.fract t * 1000000) =
      (t * 1000000 : ℚ).num - ⌊t⌋ * 1000000 := by
    rw [hm]
    unfold pyInt
    rw [if_pos (by exact_mod_cast hm0)]
    exact Int.floor_intCast _
  constructor
  · simp only [time_to_seconds, seconds_to_time_obj]
    rw [hpyt, hmicro]
    have hNat : (⌊t⌋.toNat / 3600 % 24) * 3600 +
        ⌊t⌋.toNat % 3600 / 60 * 60 + ⌊t⌋.toNat % 60 =
        ⌊t⌋.toNat % 86400 := by omega
    have hNq : ((⌊t⌋.toNat : ℕ) : ℚ) = (⌊t⌋ : ℚ) := by
      exact_mod_cast congrArg (fun z : ℤ => (z : ℚ))
        (Int.toNat_of_nonneg hfl0)
    have hfloor : ⌊t / 86400⌋ = ((⌊t⌋.toNat / 86400 : ℕ) : ℤ) := by
      rw [Int.floor_eq_iff]
      constructor
      · rw [le_div_iff₀ (by norm_num : (0 : ℚ) < 86400)]
        have h1 : (⌊t⌋.toNat / 86400) * 86400 ≤ ⌊t⌋.toNat :=
          Nat.div_mul_le_self _ _
        have h2 : ((⌊t⌋.toNat : ℕ) : ℚ) ≤ t := by
          rw [hNq]
          exact Int.floor_le t
        calc (((⌊t⌋.toNat / 86400 : ℕ) : ℤ) : ℚ) * 86400
            = ((⌊t⌋.toNat / 86400 * 86400 : ℕ) : ℚ) := by norm_cast
          _ ≤ ((⌊t⌋.toNat : ℕ) : ℚ) := by exact_mod_cast h1
          _ ≤ t := h2
      · rw [div_lt_iff₀ (by norm_num : (0 : ℚ) < 86400)]
        have h3 : t < ((⌊t⌋.toNat : ℕ) : ℚ) + 1 := by
          rw [hNq]
          exact Int.lt_floor_add_one t
        have h4 : ⌊t⌋.toNat + 1 ≤ (⌊t⌋.toNat / 86400 + 1) * 86400 := by
          omega
        calc t < ((⌊t⌋.toNat : ℕ) : ℚ) + 1 := h3
          _ ≤ (((⌊t⌋.toNat / 86400 + 1) * 86400 : ℕ) : ℚ) := by
            exact_mod_cast h4
          _ = ((((⌊t⌋.toNat / 86400 : ℕ) : ℤ) : ℚ) + 1) * 86400 := by
            norm_cast
    rw [hfloor]
    have hmq : (((t * 1000000 : ℚ).num - ⌊t⌋ * 1000000 : ℤ).toNat : ℚ) =
        (((t * 1000000 : ℚ).num - ⌊t⌋ * 1000000 : ℤ) : ℚ) := by
      exact_mod_cast congrArg (fun z : ℤ => (z : ℚ))
        (Int.toNat_of_nonneg hm0)
    have hfract' : (((t * 1000000 : ℚ).num - ⌊t⌋ * 1000000 : ℤ).toNat : ℚ)
        / 1000000 = Int.fract t := by
      rw [hmq, ← hm, mul_div_assoc]
      norm_num
    rw [hfract']
    have hc1 : ((⌊t⌋.toNat / 3600 % 24 : ℕ) : ℚ) * 3600 +
        ((⌊t⌋.toNat % 3600 / 60 : ℕ) : ℚ) * 60 +
        ((⌊t⌋.toNat % 60 : ℕ) : ℚ) = ((⌊t⌋.toNat % 86400 : ℕ) : ℚ) := by
      exact_mod_cast hNat
    have hmod : (⌊t⌋.toNat % 86400 : ℕ) + 86400 * (⌊t⌋.toNat / 86400) =
        ⌊t⌋.toNat := Nat.mod_add_div _ _
    have hc2 : ((⌊t⌋.toNat % 86400 : ℕ) : ℚ) +
        86400 * ((⌊t⌋.toNat / 86400 : ℕ) : ℚ) = ((⌊t⌋.toNat : ℕ) : ℚ) := by
      exact_mod_cast hmod
    have ht : t = ((⌊t⌋.toNat : ℕ) : ℚ) + Int.fract t := by
      rw [hNq]
      linarith [Int.floor_add_fract t]
    have hb : ((((⌊t⌋.toNat / 86400 : ℕ) : ℤ)) : ℚ) =
        ((⌊t⌋.toNat / 86400 : ℕ) : ℚ) := by norm_cast
    linarith [hc1, hc2, ht, hb]
  · simp only [seconds_to_time_obj]
    have hpy2 : pyInt (t + 86400) = pyInt t + 86400 := by
      unfold pyInt
      rw [if_pos h0, if_pos (by linarith)]
      rw [show (86400 : ℚ) = ((86400 : ℤ) : ℚ) by norm_num,
        Int.floor_add_int]
    have hfr2 : Int.fract (t + 86400) = Int.fract t := by
      rw [show (86400 : ℚ) = ((86400 : ℤ) : ℚ) by norm_num,
        Int.fract_add_int]
    rw [hpy2, hfr2, hpyt]
    have hpyt0 : (0 : ℤ) ≤ ⌊t⌋ := hfl0
    have htn : (⌊t⌋ + 86400).toNat = ⌊t⌋.toNat + 86400 := by omega
    rw [htn]
    simp only [TimeObj.mk.injEq]
    refine ⟨by omega, by omega, by omega, trivial⟩

/-- Witness for C10: `t = 86401` reads back as `1`, and `1` and `86401`
persist identically. -/
theorem save_audio_clip_time_wrap_witness :
    time_to_seconds (seconds_to_time_obj 86401) =
      86401 - 86400 * (⌊(86401 : ℚ) / 86400⌋ : ℚ) ∧
    seconds_to_time_obj (1 + 86400) = seconds_to_time_obj 1 :=
  ⟨(save_audio_clip_time_wrap 86401 (by norm_num)
      (by rw [show (86401 : ℚ) * 1000000 = ((86401000000 : ℤ) : ℚ) by
            norm_num]
          exact Rat.den_intCast _)).1,
   (save_audio_clip_time_wrap 1 (by norm_num)
      (by rw [show (1 : ℚ) * 1000000 = ((1000000 : ℤ) : ℚ) by norm_num]
          exact Rat.den_intCast _)).2⟩
